import Mathlib

/-
Verification of the boundary-matching core of the dissect processor
(libbeat/processors/dissect/delimiter.go).

The Go code defines an interface `delimiter` with three implementations
sharing an embedded `baseDelimiter` struct holding the fields
`needle string`, `length int`, `greedy bool`, `next delimiter`:

  * `zeroByte`        — anchor kind; inherits `baseDelimiter.IndexOf`
                        (returns `offset + length`) with `length = 0`;
  * `fixedLengthByte` — fixed-width kind; inherits `baseDelimiter.IndexOf`;
  * `multiByte`       — substring kind; overrides `IndexOf` with a
                        `strings.Index(haystack[offset:], needle)` search
                        and overrides `Len` with `len(needle)`.

We embed a node as a nested inductive (the `next` link makes the chain a
finite, acyclic structure by construction, as the spec demands).  Strings
are lists of characters; Go `int` is `Int`.  `IndexOf` returns
`Option Int`: `none` models the runtime panic raised by the slice
expression `haystack[offset:]` when `offset < 0` or
`offset > len(haystack)`; every non-panicking return is `some`.
Method receivers are values, so observers are pure functions and the two
mutators (`MarkGreedy`, `SetNext`) return the updated node.
-/

namespace Dissect

/-- Kind tag distinguishing the three Go implementations of the
`delimiter` interface. -/
inductive DKind where
  | zeroByte
  | fixedLengthByte
  | multiByte
deriving DecidableEq, Repr

/-- A boundary node: the fields of the embedded Go `baseDelimiter`
struct plus the kind tag selecting which method set applies.  The
`next` field is the forward chain link (`nil` = `none`). -/
inductive Delimiter : Type where
  | mk (kind : DKind) (needle : List Char) (length : Int) (greedy : Bool)
      (next : Option Delimiter)

/-- Field projection: the kind tag. -/
def Delimiter.kind : Delimiter → DKind
  | .mk k _ _ _ _ => k

/-- Field projection: the literal separator text (`needle`). -/
def Delimiter.needle : Delimiter → List Char
  | .mk _ n _ _ _ => n

/-- Field projection: the `length` field of `baseDelimiter`. -/
def Delimiter.length : Delimiter → Int
  | .mk _ _ l _ _ => l

/-- Field projection: the `greedy` flag. -/
def Delimiter.greedy : Delimiter → Bool
  | .mk _ _ _ g _ => g

/-- Field projection: the forward chain link. -/
def Delimiter.next : Delimiter → Option Delimiter
  | .mk _ _ _ _ nx => nx

/-- First index at which `sub` occurs in `s`, scanning left to right
(the recursion underlying Go `strings.Index`): `some i` for the least
`i` with `sub` a prefix of `s.drop i`, `none` if there is none. -/
def indexOfFrom (sub : List Char) : List Char → Option Nat
  | [] => if sub <+: ([] : List Char) then some 0 else none
  | c :: t =>
      if sub <+: (c :: t) then some 0
      else (indexOfFrom sub t).map (fun n => n + 1)

/-- Go `strings.Index(s, sub)`: the index of the first occurrence of
`sub` in `s`, or `-1` if `sub` is not present. -/
def stringsIndex (s sub : List Char) : Int :=
  match indexOfFrom sub s with
  | some n => (n : Int)
  | none => -1

/-- `IndexOf` with Go's dynamic dispatch resolved on the kind tag.
`zeroByte` and `fixedLengthByte` inherit `baseDelimiter.IndexOf`, which
returns `offset + b.length` unconditionally.  `multiByte.IndexOf`
evaluates `strings.Index(haystack[offset:], m.needle)`; the slice
`haystack[offset:]` panics (modelled as `none`) when `offset < 0` or
`offset > len(haystack)`; on a hit it returns `i + offset`, else `-1`. -/
def Delimiter.IndexOf (d : Delimiter) (haystack : List Char) (offset : Int) :
    Option Int :=
  match d.kind with
  | .multiByte =>
      if offset < 0 ∨ (haystack.length : Int) < offset then none
      else
        let i := stringsIndex (haystack.drop offset.toNat) d.needle
        if i ≠ -1 then some (i + offset) else some (-1)
  | _ => some (offset + d.length)

/-- `Len` with dispatch resolved: `multiByte.Len` returns
`len(m.needle)`; the other kinds inherit `baseDelimiter.Len`, returning
the `length` field. -/
def Delimiter.Len (d : Delimiter) : Int :=
  match d.kind with
  | .multiByte => (d.needle.length : Int)
  | _ => d.length

/-- `baseDelimiter.Delimiter()`: returns the needle. -/
def Delimiter.DelimiterOf (d : Delimiter) : List Char :=
  d.needle

/-- `baseDelimiter.IsGreedy()`: returns the greedy flag. -/
def Delimiter.IsGreedy (d : Delimiter) : Bool :=
  d.greedy

/-- `baseDelimiter.MarkGreedy()`: sets the greedy flag to true. -/
def Delimiter.MarkGreedy : Delimiter → Delimiter
  | .mk k n l _ nx => .mk k n l true nx

/-- `baseDelimiter.Next()`: returns the chain link. -/
def Delimiter.Next (d : Delimiter) : Option Delimiter :=
  d.next

/-- `baseDelimiter.SetNext(d)`: replaces the chain link (`none` = `nil`). -/
def Delimiter.SetNext : Delimiter → Option Delimiter → Delimiter
  | .mk k n l g _, nx => .mk k n l g nx

/-- The `String()` debug methods of the three kinds. -/
def Delimiter.String (d : Delimiter) : String :=
  match d.kind with
  | .zeroByte => "delimiter: zerobyte"
  | .fixedLengthByte =>
      "delimiter: fixedlengthbyte (len: " ++ toString d.length ++ ")"
  | .multiByte =>
      "delimiter: multibyte (match: \x27" ++ String.mk d.needle ++
        "\x27, len: " ++ toString d.Len ++ ")"

/-- `newDelimiter`: the factory.  An empty needle yields `&zeroByte{}`
(all fields at their Go zero values); otherwise
`&multiByte{baseDelimiter{needle: needle}}` (length 0, greedy false,
next nil). -/
def newDelimiter (needle : List Char) : Delimiter :=
  if needle.length == 0 then .mk .zeroByte [] 0 false none
  else .mk .multiByte needle 0 false none

/-- The two mutating operations of the interface, as events, so that
"after any sequence of `MarkGreedy` / `SetNext` calls" can be
quantified over. -/
inductive Mut where
  | markGreedy
  | setNext (nx : Option Delimiter)

/-- Apply one mutating call to a node. -/
def applyMut (d : Delimiter) : Mut → Delimiter
  | .markGreedy => d.MarkGreedy
  | .setNext nx => d.SetNext nx

/-- Apply a sequence of mutating calls, oldest first. -/
def applyMuts (d : Delimiter) : List Mut → Delimiter
  | [] => d
  | m :: ms => applyMuts (applyMut d m) ms

/-- The chain reachable from a node by repeated `Next()`: the node
itself, then the chain of its successor.  Total because the embedded
chain is a finite structure. -/
def chain : Delimiter → List Delimiter
  | .mk k n l g none => [.mk k n l g none]
  | .mk k n l g (some nx) => .mk k n l g (some nx) :: chain nx

/-- The needle `N` matches inside haystack `H` at position `i`:
`H[i..i+len N) = N` (in particular the match fits inside `H`). -/
def matchesAt (H N : List Char) (i : Nat) : Prop :=
  N <+: H.drop i

instance (H N : List Char) (i : Nat) : Decidable (matchesAt H N i) :=
  inferInstanceAs (Decidable (N <+: H.drop i))

/- Helper lemmas (shared). -/

/-- Characterization of a failed search: `indexOfFrom` returns `none`
exactly when the needle is a prefix of no suffix of `s`. -/
theorem indexOfFrom_eq_none (sub : List Char) (s : List Char)
    (h : indexOfFrom sub s = none) :
    ∀ m : Nat, ¬ (sub <+: s.drop m) := by
  induction s with
  | nil =>
      intro m
      simp only [indexOfFrom] at h
      split at h
      · exact absurd h (by simp)
      · rename_i hnp
        simpa using hnp
  | cons c t ih =>
      intro m
      simp only [indexOfFrom] at h
      split at h
      · exact absurd h (by simp)
      · rename_i hnp
        have ht : indexOfFrom sub t = none := by
          cases hx : indexOfFrom sub t <;> simp [hx] at h ⊢
        cases m with
        | zero => simpa using hnp
        | succ m => simpa using ih ht m

/-- Characterization of a successful search: `indexOfFrom` returns the
least position at which the needle is a prefix of the corresponding
suffix. -/
theorem indexOfFrom_eq_some (sub : List Char) (s : List Char) (n : Nat)
    (h : indexOfFrom sub s = some n) :
    (sub <+: s.drop n) ∧ ∀ m : Nat, m < n → ¬ (sub <+: s.drop m) := by
  induction s generalizing n with
  | nil =>
      simp only [indexOfFrom] at h
      split at h
      · rename_i hp
        have hn : n = 0 := by simpa using h.symm
        subst hn
        exact ⟨by simpa using hp, by omega⟩
      · exact absurd h (by simp)
  | cons c t ih =>
      simp only [indexOfFrom] at h
      split at h
      · rename_i hp
        have hn : n = 0 := by simpa using h.symm
        subst hn
        exact ⟨by simpa using hp, by omega⟩
      · rename_i hnp
        cases hx : indexOfFrom sub t with
        | none => simp [hx] at h
        | some k =>
            simp [hx] at h
            subst h
            obtain ⟨h1, h2⟩ := ih k hx
            refine ⟨by simpa using h1, ?_⟩
            intro m hm
            cases m with
            | zero => simpa using hnp
            | succ m => simpa using h2 m (by omega)

/-- A single mutating call preserves the kind, needle and length
fields. -/
theorem applyMut_fields (d : Delimiter) (m : Mut) :
    (applyMut d m).kind = d.kind ∧ (applyMut d m).needle = d.needle ∧
    (applyMut d m).length = d.length := by
  obtain ⟨k, n, l, g, nx⟩ := d
  cases m <;>
    simp [applyMut, Delimiter.MarkGreedy, Delimiter.SetNext, Delimiter.kind,
      Delimiter.needle, Delimiter.length]

/-- Any sequence of mutating calls preserves the kind, needle and
length fields. -/
theorem applyMuts_fields (d : Delimiter) (ms : List Mut) :
    (applyMuts d ms).kind = d.kind ∧ (applyMuts d ms).needle = d.needle ∧
    (applyMuts d ms).length = d.length := by
  induction ms generalizing d with
  | nil => exact ⟨rfl, rfl, rfl⟩
  | cons m ms ih =>
      obtain ⟨h1, h2, h3⟩ := ih (applyMut d m)
      obtain ⟨g1, g2, g3⟩ := applyMut_fields d m
      exact ⟨h1.trans g1, h2.trans g2, h3.trans g3⟩

/-- Once the greedy flag is true, no mutating call resets it. -/
theorem applyMuts_greedy_true (d : Delimiter) (ms : List Mut)
    (hg : d.greedy = true) : (applyMuts d ms).greedy = true := by
  induction ms generalizing d with
  | nil => exact hg
  | cons m ms ih =>
      refine ih (applyMut d m) ?_
      obtain ⟨k, n, l, g, nx⟩ := d
      cases m <;>
        simp_all [applyMut, Delimiter.MarkGreedy, Delimiter.SetNext,
          Delimiter.greedy]

/-- The factory, on a non-empty literal, produces a `multiByte` node
whose needle is the literal, with greedy false and no chain link. -/
theorem newDelimiter_multi_fields (s : List Char) (hs : s ≠ []) :
    (newDelimiter s).kind = DKind.multiByte ∧
    (newDelimiter s).needle = s ∧ (newDelimiter s).greedy = false ∧
    (newDelimiter s).next = none := by
  have h0 : (s.length == 0) = false := by
    simp [List.length_eq_zero, hs]
  simp [newDelimiter, h0, Delimiter.kind, Delimiter.needle,
    Delimiter.greedy, Delimiter.next]

/- Claim theorems. -/

/-- C1: for a substring (`multiByte`) boundary with non-empty needle
`N`, for every haystack `H` and every offset `0 ≤ o ≤ length H`: if `N`
occurs in `H` at some index `≥ o`, `IndexOf` returns the smallest index
`j ≥ o` with `H[j..j+len N) = N`; otherwise it returns the not-found
sentinel `-1`. -/
theorem multiByte_IndexOf_least (N H : List Char) (hN : N ≠ []) (o : Nat)
    (ho : o ≤ H.length) (d : Delimiter) (hk : d.kind = DKind.multiByte)
    (hn : d.needle = N) :
    ((∃ i : Nat, o ≤ i ∧ matchesAt H N i) →
       ∃ j : Nat, d.IndexOf H (o : Int) = some (j : Int) ∧ o ≤ j ∧
         matchesAt H N j ∧ ∀ m : Nat, o ≤ m → m < j → ¬ matchesAt H N m)
    ∧ ((∀ i : Nat, o ≤ i → ¬ matchesAt H N i) →
       d.IndexOf H (o : Int) = some (-1)) := by
  have hguard : ¬ ((o : Int) < 0 ∨ (H.length : Int) < (o : Int)) := by omega
  have htn : ((o : Int)).toNat = o := by omega
  cases hx : indexOfFrom N (H.drop o) with
  | some n =>
      obtain ⟨h1, h2⟩ := indexOfFrom_eq_some N (H.drop o) n hx
      have h1' : N <+: H.drop (n + o) := by
        rw [List.drop_drop] at h1
        rwa [Nat.add_comm]
      have hres : d.IndexOf H (o : Int) = some ((n : Int) + (o : Int)) := by
        simp only [Delimiter.IndexOf, hk, hn, stringsIndex, htn, hx]
        rw [if_neg hguard]
        simp
      constructor
      · intro _
        refine ⟨n + o, ?_, by omega, h1', ?_⟩
        · rw [hres]; congr 1
        · intro m hom hmn hmatch
          refine h2 (m - o) (by omega) ?_
          rw [List.drop_drop]
          have hmo : o + (m - o) = m := by omega
          rw [hmo]
          exact hmatch
      · intro hnone
        exact absurd h1' (hnone (n + o) (by omega))
  | none =>
      have hres : d.IndexOf H (o : Int) = some (-1) := by
        simp only [Delimiter.IndexOf, hk, hn, stringsIndex, htn, hx]
        rw [if_neg hguard]
        simp
      constructor
      · rintro ⟨i, hoi, hmi⟩
        exfalso
        refine indexOfFrom_eq_none N (H.drop o) hx (i - o) ?_
        rw [List.drop_drop]
        have hio : o + (i - o) = i := by omega
        rw [hio]
        exact hmi
      · intro _
        exact hres

theorem multiByte_IndexOf_least_witness :
    ∃ j : Nat,
      (Delimiter.mk DKind.multiByte ('-' :: []) 0 false none).IndexOf
          ("2021-01-01".data) ((0 : Nat) : Int) = some (j : Int) ∧
      0 ≤ j ∧ matchesAt ("2021-01-01".data) ('-' :: []) j ∧
      ∀ m : Nat, 0 ≤ m → m < j → ¬ matchesAt ("2021-01-01".data) ('-' :: []) m :=
  (multiByte_IndexOf_least ('-' :: []) ("2021-01-01".data) (by decide) 0
      (by decide) (Delimiter.mk DKind.multiByte ('-' :: []) 0 false none)
      rfl rfl).1 ⟨4, by decide⟩

/-- C2: for an anchor (`zeroByte`) boundary — needle empty and `length`
0 as constructed by the factory, with any greedy flag and chain link —
`IndexOf` returns the offset unchanged and `Len` returns 0, for every
haystack and every valid offset. -/
theorem zeroByte_IndexOf_Len (g : Bool) (nx : Option Delimiter)
    (H : List Char) (o : Nat) (ho : o ≤ H.length) :
    (Delimiter.mk DKind.zeroByte [] 0 g nx).IndexOf H (o : Int) =
      some (o : Int) ∧
    (Delimiter.mk DKind.zeroByte [] 0 g nx).Len = 0 := by
  constructor <;>
    simp [Delimiter.IndexOf, Delimiter.Len, Delimiter.kind, Delimiter.length]

theorem zeroByte_IndexOf_Len_witness :
    (Delimiter.mk DKind.zeroByte [] 0 false none).IndexOf ("hello".data)
      ((2 : Nat) : Int) = some ((2 : Nat) : Int) ∧
    (Delimiter.mk DKind.zeroByte [] 0 false none).Len = 0 :=
  zeroByte_IndexOf_Len false none "hello".data 2 (by decide)

/-- C3: for a fixed-length (`fixedLengthByte`) boundary of width `L`,
`IndexOf` returns `offset + L` unconditionally for every valid offset;
the haystack is universally quantified, so the result is independent of
its content. -/
theorem fixedLengthByte_IndexOf (nd : List Char) (L : Int) (g : Bool)
    (nx : Option Delimiter) (H : List Char) (o : Nat) (ho : o ≤ H.length) :
    (Delimiter.mk DKind.fixedLengthByte nd L g nx).IndexOf H (o : Int) =
      some ((o : Int) + L) := by
  simp [Delimiter.IndexOf, Delimiter.kind, Delimiter.length]

theorem fixedLengthByte_IndexOf_witness :
    (Delimiter.mk DKind.fixedLengthByte [] 3 false none).IndexOf
      ("ab".data) ((1 : Nat) : Int) = some (((1 : Nat) : Int) + 3) :=
  fixedLengthByte_IndexOf [] 3 false none "ab".data 1 (by decide)

/-- C4: the factory `newDelimiter` is a pure function (hence
deterministic); an empty literal yields the anchor kind with all fields
at their zero values, and a non-empty literal yields the substring kind
with the literal as needle, greedy false and no chain link. -/
theorem newDelimiter_kind (s : List Char) :
    (s = [] → newDelimiter s = Delimiter.mk DKind.zeroByte [] 0 false none) ∧
    (s ≠ [] → (newDelimiter s).kind = DKind.multiByte ∧
      (newDelimiter s).needle = s ∧ (newDelimiter s).greedy = false ∧
      (newDelimiter s).next = none) := by
  constructor
  · rintro rfl
    rfl
  · intro hs
    exact newDelimiter_multi_fields s hs

theorem newDelimiter_kind_witness :
    newDelimiter [] = Delimiter.mk DKind.zeroByte [] 0 false none ∧
    ((newDelimiter ('a' :: [])).kind = DKind.multiByte ∧
      (newDelimiter ('a' :: [])).needle = 'a' :: [] ∧
      (newDelimiter ('a' :: [])).greedy = false ∧
      (newDelimiter ('a' :: [])).next = none) :=
  ⟨(newDelimiter_kind []).1 rfl, (newDelimiter_kind ('a' :: [])).2 (by decide)⟩

/-- C5: on the anchor and fixed-length kinds (everything but
`multiByte`), `IndexOf` always succeeds — no panic is possible — and,
the width being non-negative, the result is a non-negative index (never
the `-1` sentinel) for every haystack and every offset `o ≥ 0`, even
when the index exceeds the haystack length. -/
theorem arith_IndexOf_total (d : Delimiter) (hk : d.kind ≠ DKind.multiByte)
    (hL : 0 ≤ d.length) (H : List Char) (o : Int) (ho : 0 ≤ o) :
    ∃ i : Int, d.IndexOf H o = some i ∧ 0 ≤ i ∧ i ≠ -1 := by
  refine ⟨o + d.length, ?_, by omega, by omega⟩
  cases hdk : d.kind with
  | multiByte => exact absurd hdk hk
  | zeroByte => simp [Delimiter.IndexOf, hdk]
  | fixedLengthByte => simp [Delimiter.IndexOf, hdk]

theorem arith_IndexOf_total_witness :
    ∃ i : Int,
      (Delimiter.mk DKind.fixedLengthByte [] 3 false none).IndexOf [] 5 =
        some i ∧ 0 ≤ i ∧ i ≠ -1 :=
  arith_IndexOf_total _ (by decide) (by decide) [] 5 (by decide)

/-- C6: `Len` of a substring boundary built by the factory equals the
byte length of its needle, and the needle is the construction literal,
after any sequence of `MarkGreedy` / `SetNext` calls; for the anchor
boundary `Len` is 0 after any such sequence. -/
theorem Len_needle_invariant (s : List Char) (ms : List Mut) :
    (s ≠ [] →
       (applyMuts (newDelimiter s) ms).Len =
         ((applyMuts (newDelimiter s) ms).needle.length : Int) ∧
       (applyMuts (newDelimiter s) ms).needle = s) ∧
    (applyMuts (newDelimiter []) ms).Len = 0 := by
  constructor
  · intro hs
    obtain ⟨h1, h2, h3⟩ := applyMuts_fields (newDelimiter s) ms
    have hfac := newDelimiter_multi_fields s hs
    have hk : (applyMuts (newDelimiter s) ms).kind = DKind.multiByte :=
      h1.trans hfac.1
    have hnd : (applyMuts (newDelimiter s) ms).needle = s :=
      h2.trans hfac.2.1
    exact ⟨by simp [Delimiter.Len, hk], hnd⟩
  · obtain ⟨h1, h2, h3⟩ := applyMuts_fields (newDelimiter []) ms
    have hk : (applyMuts (newDelimiter []) ms).kind = DKind.zeroByte := by
      simpa [newDelimiter, Delimiter.kind] using h1
    have hl : (applyMuts (newDelimiter []) ms).length = 0 := by
      simpa [newDelimiter, Delimiter.length] using h3
    simp [Delimiter.Len, hk, hl]

theorem Len_needle_invariant_witness :
    (applyMuts (newDelimiter ('a' :: []))
        (Mut.markGreedy :: Mut.setNext none :: [])).Len =
      ((applyMuts (newDelimiter ('a' :: []))
        (Mut.markGreedy :: Mut.setNext none :: [])).needle.length : Int) ∧
    (applyMuts (newDelimiter ('a' :: []))
        (Mut.markGreedy :: Mut.setNext none :: [])).needle = 'a' :: [] :=
  (Len_needle_invariant ('a' :: []) (Mut.markGreedy :: Mut.setNext none :: [])).1
    (by decide)

/-- C7: a boundary fresh from the factory has `IsGreedy` false;
`MarkGreedy` sets it to true, and it stays true after any further
sequence of `MarkGreedy` / `SetNext` calls (so `MarkGreedy` is
idempotent and no operation resets the flag). -/
theorem MarkGreedy_idempotent (s : List Char) (d : Delimiter)
    (ms : List Mut) :
    (newDelimiter s).IsGreedy = false ∧
    (applyMuts d.MarkGreedy ms).IsGreedy = true := by
  constructor
  · unfold newDelimiter Delimiter.IsGreedy
    split <;> rfl
  · refine applyMuts_greedy_true _ ms ?_
    obtain ⟨k, n, l, g, nx⟩ := d
    rfl

/-- C8: `SetNext (some B)` then `Next` yields `some B`; `SetNext none`
clears the link; and the chain built by linking A → B → C is traversed
as exactly A, B, C, after which traversal terminates. -/
theorem SetNext_Next_roundtrip (A B C : Delimiter) (hC : C.next = none) :
    (A.SetNext (some B)).Next = some B ∧
    (A.SetNext none).Next = none ∧
    chain (A.SetNext (some (B.SetNext (some C)))) =
      (A.SetNext (some (B.SetNext (some C)))) ::
        (B.SetNext (some C)) :: C :: [] := by
  obtain ⟨ka, na, la, ga, xa⟩ := A
  obtain ⟨kb, nb, lb, gb, xb⟩ := B
  obtain ⟨kc, nc, lc, gc, xc⟩ := C
  simp only [Delimiter.next] at hC
  subst hC
  refine ⟨rfl, rfl, ?_⟩
  simp [Delimiter.SetNext, chain]

theorem SetNext_Next_roundtrip_witness :
    ((Delimiter.mk DKind.multiByte ('a' :: []) 0 false none).SetNext
        (some (Delimiter.mk DKind.zeroByte [] 0 false none))).Next =
      some (Delimiter.mk DKind.zeroByte [] 0 false none) ∧
    ((Delimiter.mk DKind.multiByte ('a' :: []) 0 false none).SetNext
        none).Next = none ∧
    chain ((Delimiter.mk DKind.multiByte ('a' :: []) 0 false none).SetNext
        (some ((Delimiter.mk DKind.zeroByte [] 0 false none).SetNext
          (some (Delimiter.mk DKind.fixedLengthByte [] 2 false none))))) =
      ((Delimiter.mk DKind.multiByte ('a' :: []) 0 false none).SetNext
        (some ((Delimiter.mk DKind.zeroByte [] 0 false none).SetNext
          (some (Delimiter.mk DKind.fixedLengthByte [] 2 false none))))) ::
        ((Delimiter.mk DKind.zeroByte [] 0 false none).SetNext
          (some (Delimiter.mk DKind.fixedLengthByte [] 2 false none))) ::
        (Delimiter.mk DKind.fixedLengthByte [] 2 false none) :: [] :=
  SetNext_Next_roundtrip (Delimiter.mk DKind.multiByte ('a' :: []) 0 false none)
    (Delimiter.mk DKind.zeroByte [] 0 false none)
    (Delimiter.mk DKind.fixedLengthByte [] 2 false none) rfl

/-- C9: passing an out-of-range offset (negative, or greater than the
haystack length) to the substring kind's `IndexOf` hits the Go slice
expression `haystack[offset:]`, which panics (modelled as `none`): the
offset is not clamped and no value is returned. -/
theorem multiByte_IndexOf_out_of_range (d : Delimiter)
    (hk : d.kind = DKind.multiByte) (H : List Char) (o : Int)
    (ho : o < 0 ∨ (H.length : Int) < o) :
    d.IndexOf H o = none := by
  simp only [Delimiter.IndexOf, hk]
  rw [if_pos ho]

theorem multiByte_IndexOf_out_of_range_witness :
    (Delimiter.mk DKind.multiByte ('a' :: []) 0 false none).IndexOf []
      (-1) = none :=
  multiByte_IndexOf_out_of_range
    (Delimiter.mk DKind.multiByte ('a' :: []) 0 false none) rfl [] (-1)
    (by decide)

/-- C10: frame conditions of the two mutators.  `MarkGreedy` changes
only the greedy flag (kind, needle, length and next are preserved);
`SetNext` changes only the chain link (kind, needle, length and greedy
are preserved).  The observers (`IndexOf`, `Len`, `DelimiterOf`,
`String`, `IsGreedy`, `Next`) are embedded as pure functions of the
node — matching the Go methods, which only read their receiver — so
they leave every field unchanged by construction. -/
theorem mutators_frame (d : Delimiter) (nx : Option Delimiter) :
    (d.MarkGreedy.kind = d.kind ∧ d.MarkGreedy.needle = d.needle ∧
      d.MarkGreedy.length = d.length ∧ d.MarkGreedy.next = d.next ∧
      d.MarkGreedy.greedy = true) ∧
    ((d.SetNext nx).kind = d.kind ∧ (d.SetNext nx).needle = d.needle ∧
      (d.SetNext nx).length = d.length ∧ (d.SetNext nx).greedy = d.greedy ∧
      (d.SetNext nx).next = nx) := by
  obtain ⟨k, n, l, g, x⟩ := d
  simp [Delimiter.MarkGreedy, Delimiter.SetNext, Delimiter.kind,
    Delimiter.needle, Delimiter.length, Delimiter.greedy, Delimiter.next]

end Dissect
